import Mathlib

/-!
Verification development for the client-recommendation engine of
`find_similar_clients.py`. The pandas DataFrames are embedded as lists of
typed records; Python dicts (which preserve insertion order) are embedded as
association lists together with the insert/update operations the code uses;
the crash on an empty `.iloc[0]` lookup is embedded as `Option`.
-/

namespace FindSimilarClients

/-- Row of the raw client table, with the columns this module reads.
`client_is_contactable` is the contactability flag tested by
`query("client_is_contactable == 1")`; the three other raw contactability
sub-flags are carried so that dropping them is visible in the types. -/
structure ClientRow where
  client_id : String
  client_country : String
  client_nationality : String
  client_city : String
  client_gender : String
  client_segment : String
  client_premium_status : String
  client_is_contactable : Bool
  client_is_phone_contactable : Bool
  client_is_email_contactable : Bool
  client_is_instant_messaging_contactable : Bool
deriving DecidableEq, Repr

/-- Row of the transaction table. Only the `client_id` column is ever read by
`filter_client_df`; the remaining columns are irrelevant to these functions. -/
structure TransactionRow where
  client_id : String
deriving DecidableEq, Repr

/-- Row of the filtered client table produced by `filter_client_df`: the four
raw contactability columns are dropped and the derived boolean
`has_already_done_transaction` is added. -/
structure FilteredClientRow where
  client_id : String
  client_country : String
  client_nationality : String
  client_city : String
  client_gender : String
  client_segment : String
  client_premium_status : String
  has_already_done_transaction : Bool
deriving DecidableEq, Repr

/-- The module-level weight dictionary `CLIENTS_SIMILARITY_RULES`. -/
def CLIENTS_SIMILARITY_RULES : List (String × Int) :=
  [("same_country", 1), ("same_nationality", 3), ("same_city", 5), ("same_gender", 3)]

/-- Lookup in the weight dictionary (all four keys used by the code are
present, so the default is never reached). -/
def ruleWeight (k : String) : Int :=
  ((CLIENTS_SIMILARITY_RULES.find? (fun p => p.1 == k)).map (fun p => p.2)).getD 0

/-- Embedding of `pandas.Series.unique` on the `client_id` column: the
distinct values in first-occurrence order. -/
def pdUnique (l : List String) : List String :=
  l.foldl (fun acc x => if x ∈ acc then acc else acc ++ [x]) []

/-- Embedding of `filter_client_df`: keep the rows whose contactability flag
is set, drop the four raw contactability columns, and add the boolean column
`has_already_done_transaction` as membership of the row's `client_id` in the
unique client ids of the transaction table. -/
def filter_client_df (clients_df : List ClientRow) (transactions_df : List TransactionRow) :
    List FilteredClientRow :=
  let filtered := clients_df.filter (fun r => r.client_is_contactable)
  let clients_with_transactions := pdUnique (transactions_df.map (fun t => t.client_id))
  filtered.map (fun r =>
    { client_id := r.client_id
      client_country := r.client_country
      client_nationality := r.client_nationality
      client_city := r.client_city
      client_gender := r.client_gender
      client_segment := r.client_segment
      client_premium_status := r.client_premium_status
      has_already_done_transaction := clients_with_transactions.contains r.client_id })

/-- Embedding of `similarity_score`: start from 0 and add the fixed weight of
each of the four attributes on which the candidate row agrees with the
reference client's data. -/
def similarity_score (row : FilteredClientRow) (client_data : FilteredClientRow) : Int :=
  let score : Int := 0
  let score := if row.client_country == client_data.client_country then
    score + ruleWeight "same_country" else score
  let score := if row.client_nationality == client_data.client_nationality then
    score + ruleWeight "same_nationality" else score
  let score := if row.client_city == client_data.client_city then
    score + ruleWeight "same_city" else score
  let score := if row.client_gender == client_data.client_gender then
    score + ruleWeight "same_gender" else score
  score

/-- Python dict comprehension insert: `{client_id: score for ...}`. A repeated
key keeps its first position and takes the latest value; a fresh key is
appended at the end. -/
def dictInsert (d : List (String × Int)) (k : String) (v : Int) : List (String × Int) :=
  if d.any (fun q => q.1 == k) then
    d.map (fun q => if q.1 == k then (q.1, v) else q)
  else d ++ [(k, v)]

/-- Build a Python dict from a list of key-value pairs in order. -/
def dictOfPairs (ps : List (String × Int)) : List (String × Int) :=
  ps.foldl (fun d p => dictInsert d p.1 p.2) []

/-- Python dict read with a default: the value at the first (hence, in a dict,
only) entry with the key, or 0 when absent. -/
def dictGet (d : List (String × Int)) (k : String) : Int :=
  ((d.find? (fun q => q.1 == k)).map (fun q => q.2)).getD 0

/-- Embedding of `get_closest_clients`. The seed row is looked up in the table
passed in (`filtered_clients_df.query(f"client_id == '{client_id}'").iloc[0]`,
exact string match, first matching row); `none` embeds the `IndexError` raised
by `.iloc[0]` on an empty lookup result. Candidates are the rows sharing the
seed's segment and premium status that have never done a transaction; each is
scored against the seed, rows with score `> 0` are kept, and the result dict
maps candidate id to score. -/
def get_closest_clients (client_id : String) (filtered_clients_df : List FilteredClientRow) :
    Option (List (String × Int)) :=
  match filtered_clients_df.find? (fun r => r.client_id == client_id) with
  | none => none
  | some client_data =>
    let similar_clients := filtered_clients_df.filter (fun r =>
      r.client_segment == client_data.client_segment &&
      r.client_premium_status == client_data.client_premium_status &&
      r.has_already_done_transaction == false)
    let scored := similar_clients.map (fun r => (r, similarity_score r client_data))
    let closest_clients := scored.filter (fun p => p.2 > 0)
    some (dictOfPairs (closest_clients.map (fun p => (p.1.client_id, p.2))))

/-- The first loop of `generate_best_new_clients`: call `get_closest_clients`
for every seed in order, collecting the per-seed dicts; a failed lookup
aborts the whole computation (the Python exception propagates). -/
def collect_closest (filtered_clients_df : List FilteredClientRow) :
    List String → Option (List (List (String × Int)))
  | [] => some []
  | client_id :: rest =>
    match get_closest_clients client_id filtered_clients_df with
    | none => none
    | some closest =>
      match collect_closest filtered_clients_df rest with
      | none => none
      | some ds => some (closest :: ds)

/-- Accumulator update of the second loop: `best[client] += score` when the
key is present (updated in place, position kept), `best[client] = score`
otherwise (appended at the end). -/
def dictAdd (best : List (String × Int)) (k : String) (v : Int) : List (String × Int) :=
  if best.any (fun q => q.1 == k) then
    best.map (fun q => if q.1 == k then (q.1, q.2 + v) else q)
  else best ++ [(k, v)]

/-- The second loop of `generate_best_new_clients`: fold every entry of every
per-seed dict into the running total `best_new_clients`, starting empty. -/
def accumulate_scores (ds : List (List (String × Int))) : List (String × Int) :=
  ds.foldl (fun best closest => closest.foldl (fun b p => dictAdd b p.1 p.2) best) []

/-- The comparison used by `sorted(..., key=lambda item: item[1], reverse=True)`:
descending by score. -/
def scoreDesc (a b : String × Int) : Prop := b.2 ≤ a.2

instance : DecidableRel scoreDesc := fun a b => Int.decLe b.2 a.2

instance : IsTotal (String × Int) scoreDesc :=
  ⟨fun a b => le_total b.2 a.2⟩

instance : IsTrans (String × Int) scoreDesc :=
  ⟨fun _ _ _ h1 h2 => le_trans h2 h1⟩

/-- Embedding of `generate_best_new_clients`: filter the client table, collect
the per-seed closest-client dicts, accumulate them into a total keyed by
candidate id, and sort the result descending by score (`dict(sorted(...))`
keeps the sorted order). -/
def generate_best_new_clients (client_id_list : List String) (clients_df : List ClientRow)
    (transactions_df : List TransactionRow) : Option (List (String × Int)) :=
  let filtered_clients_df := filter_client_df clients_df transactions_df
  match collect_closest filtered_clients_df client_id_list with
  | none => none
  | some all_closest_clients =>
    some (List.insertionSort scoreDesc (accumulate_scores all_closest_clients))

/-- Spec-side restatement of the eligibility filter (§4.1 of the spec): keep
exactly the rows whose contactability flag is true, and set the derived
boolean to whether some transaction row carries the client's identifier. Used
only to compare against `filter_client_df`. -/
def filter_client_df_spec (clients_df : List ClientRow) (transactions_df : List TransactionRow) :
    List FilteredClientRow :=
  (clients_df.filter (fun r => decide (r.client_is_contactable = true))).map (fun r =>
    { client_id := r.client_id
      client_country := r.client_country
      client_nationality := r.client_nationality
      client_city := r.client_city
      client_gender := r.client_gender
      client_segment := r.client_segment
      client_premium_status := r.client_premium_status
      has_already_done_transaction :=
        decide (∃ tr ∈ transactions_df, tr.client_id = r.client_id) })

/-- Concrete contactable client used in witnesses and counterexamples. -/
def exA : ClientRow :=
  { client_id := "cA", client_country := "FR", client_nationality := "FR",
    client_city := "Paris", client_gender := "M", client_segment := "S1",
    client_premium_status := "P", client_is_contactable := true,
    client_is_phone_contactable := true, client_is_email_contactable := true,
    client_is_instant_messaging_contactable := false }

/-- Concrete candidate sharing country and gender with `exA` but differing in
nationality and city. -/
def exX : ClientRow :=
  { exA with client_id := "cX", client_nationality := "DE", client_city := "Lyon" }

/-- Concrete non-contactable client: present in the raw client table but
removed by the eligibility filter. -/
def exB : ClientRow :=
  { exA with client_id := "cB", client_is_contactable := false }

/-- Concrete transaction row recording that `exA` has already transacted. -/
def exTxA : TransactionRow := { client_id := "cA" }

/-- Cell value of a pandas DataFrame, for the heap-threaded embedding used by
the frame claim: the columns this module touches hold strings, integers and
booleans. -/
inductive PValue where
  | strv (v : String)
  | intv (v : Int)
  | boolv (v : Bool)
deriving DecidableEq, Repr

/-- A DataFrame row as an ordered association of column name to cell value. -/
abbrev PRow : Type := List (String × PValue)

/-- A DataFrame as a list of rows. -/
abbrev PFrame : Type := List PRow

/-- The heap of live DataFrame objects; a DataFrame reference is an index into
it. Operations returning a fresh frame (query, drop, boolean-mask selection,
copy) append; in-place column assignment overwrites at its reference. -/
abbrev Heap : Type := List PFrame

/-- Read a column of a row (first entry with the column name). -/
def rowGet (row : PRow) (c : String) : PValue :=
  ((row.find? (fun p => p.1 == c)).map (fun p => p.2)).getD (PValue.strv "")

/-- Column assignment on one row: overwrite the column in place if present,
append it otherwise. -/
def rowSet (row : PRow) (c : String) (v : PValue) : PRow :=
  if row.any (fun p => p.1 == c) then
    row.map (fun p => if p.1 == c then (p.1, v) else p)
  else row ++ [(c, v)]

/-- Allocate a fresh frame on the heap, returning the new heap and the
reference of the frame. -/
def heapAlloc (h : Heap) (f : PFrame) : Heap × Nat := (h ++ [f], h.length)

/-- Dereference a frame. -/
def heapGet (h : Heap) (r : Nat) : PFrame := h.getD r []

/-- Overwrite the frame at a reference (in-place DataFrame mutation). -/
def heapSet (h : Heap) (r : Nat) (f : PFrame) : Heap := h.set r f

/-- First-occurrence-order distinct values (`Series.unique`) over cell
values. -/
def pdUniqueV (l : List PValue) : List PValue :=
  l.foldl (fun acc x => if x ∈ acc then acc else acc ++ [x]) []

/-- Heap-threaded embedding of `filter_client_df`: `query` and `drop` each
return a fresh frame (two allocations); the `has_already_done_transaction`
column assignment mutates the second fresh frame in place. Neither input
reference is written. -/
def filter_client_df_st (h : Heap) (clientsRef txRef : Nat) : Heap × Nat :=
  let clients := heapGet h clientsRef
  let queried := clients.filter (fun row =>
    rowGet row "client_is_contactable" == PValue.intv 1)
  let h1 := (heapAlloc h queried).1
  let qRef := (heapAlloc h queried).2
  let dropped := (heapGet h1 qRef).map (fun row => row.filter (fun p =>
    !(p.1 == "client_is_phone_contactable" || p.1 == "client_is_email_contactable" ||
      p.1 == "client_is_instant_messaging_contactable" || p.1 == "client_is_contactable")))
  let h2 := (heapAlloc h1 dropped).1
  let fRef := (heapAlloc h1 dropped).2
  let txIds := pdUniqueV ((heapGet h2 txRef).map (fun row => rowGet row "client_id"))
  let h3 := heapSet h2 fRef ((heapGet h2 fRef).map (fun row =>
    rowSet row "has_already_done_transaction"
      (PValue.boolv (txIds.contains (rowGet row "client_id")))))
  (h3, fRef)

/-- Similarity score on heap-model rows, mirroring `similarity_score`. -/
def similarity_score_v (row client_data : PRow) : Int :=
  let score : Int := 0
  let score := if rowGet row "client_country" == rowGet client_data "client_country" then
    score + ruleWeight "same_country" else score
  let score := if rowGet row "client_nationality" == rowGet client_data "client_nationality" then
    score + ruleWeight "same_nationality" else score
  let score := if rowGet row "client_city" == rowGet client_data "client_city" then
    score + ruleWeight "same_city" else score
  let score := if rowGet row "client_gender" == rowGet client_data "client_gender" then
    score + ruleWeight "same_gender" else score
  score

/-- Python dict insert over heap-model values (same overwrite-or-append
semantics as `dictInsert`). -/
def dictInsertV (d : List (PValue × PValue)) (k v : PValue) : List (PValue × PValue) :=
  if d.any (fun q => q.1 == k) then
    d.map (fun q => if q.1 == k then (q.1, v) else q)
  else d ++ [(k, v)]

/-- Python dict built from pairs, over heap-model values. -/
def dictOfPairsV (ps : List (PValue × PValue)) : List (PValue × PValue) :=
  ps.foldl (fun d p => dictInsertV d p.1 p.2) []

/-- Heap-threaded embedding of `get_closest_clients`: the boolean-mask
selection followed by `.copy()` allocates a fresh frame, the
`similarity_score` column assignment mutates that copy in place, the
score-positive selection allocates another fresh frame, and the result dict
is read off it. The input frame reference is never written. -/
def get_closest_clients_st (h : Heap) (client_id : String) (dfRef : Nat) :
    Option (Heap × List (PValue × PValue)) :=
  let df := heapGet h dfRef
  match df.find? (fun row => rowGet row "client_id" == PValue.strv client_id) with
  | none => none
  | some client_data =>
    let masked := df.filter (fun row =>
      rowGet row "client_segment" == rowGet client_data "client_segment" &&
      rowGet row "client_premium_status" == rowGet client_data "client_premium_status" &&
      rowGet row "has_already_done_transaction" == PValue.boolv false)
    let h1 := (heapAlloc h masked).1
    let cRef := (heapAlloc h masked).2
    let h2 := heapSet h1 cRef ((heapGet h1 cRef).map (fun row =>
      rowSet row "similarity_score" (PValue.intv (similarity_score_v row client_data))))
    let closest := (heapGet h2 cRef).filter (fun row =>
      match rowGet row "similarity_score" with
      | PValue.intv s => decide (0 < s)
      | _ => false)
    let h3 := (heapAlloc h2 closest).1
    let clRef := (heapAlloc h2 closest).2
    some (h3, dictOfPairsV ((heapGet h3 clRef).map (fun row =>
      (rowGet row "client_id", rowGet row "similarity_score"))))

/-- Heap-threaded first loop of `generate_best_new_clients`. -/
def collect_closest_st (fRef : Nat) :
    Heap → List String → Option (Heap × List (List (PValue × PValue)))
  | h, [] => some (h, [])
  | h, client_id :: rest =>
    match get_closest_clients_st h client_id fRef with
    | none => none
    | some (h1, closest) =>
      match collect_closest_st fRef h1 rest with
      | none => none
      | some (h2, ds) => some (h2, closest :: ds)

/-- Integer view of a cell value (the scores summed by the second loop are
integers). -/
def pvInt : PValue → Int
  | PValue.intv n => n
  | _ => 0

/-- Heap-model addition of two score cells. -/
def pvAdd (a b : PValue) : PValue := PValue.intv (pvInt a + pvInt b)

/-- Accumulator update over heap-model values (`best[client] += score` or
`best[client] = score`). -/
def dictAddV (best : List (PValue × PValue)) (k v : PValue) : List (PValue × PValue) :=
  if best.any (fun q => q.1 == k) then
    best.map (fun q => if q.1 == k then (q.1, pvAdd q.2 v) else q)
  else best ++ [(k, v)]

/-- Heap-threaded second loop of `generate_best_new_clients`. -/
def accumulate_scores_v (ds : List (List (PValue × PValue))) : List (PValue × PValue) :=
  ds.foldl (fun best closest => closest.foldl (fun b p => dictAddV b p.1 p.2) best) []

/-- Descending-score comparison over heap-model dict entries. -/
def scoreDescV (a b : PValue × PValue) : Prop := pvInt b.2 ≤ pvInt a.2

instance : DecidableRel scoreDescV := fun a b => Int.decLe (pvInt b.2) (pvInt a.2)

instance : IsTotal (PValue × PValue) scoreDescV :=
  ⟨fun a b => le_total (pvInt b.2) (pvInt a.2)⟩

instance : IsTrans (PValue × PValue) scoreDescV :=
  ⟨fun _ _ _ h1 h2 => le_trans h2 h1⟩

/-- Heap-threaded embedding of `generate_best_new_clients`, composing the
heap-threaded filter, per-seed scoring and aggregation. -/
def generate_best_new_clients_st (h : Heap) (client_id_list : List String)
    (clientsRef txRef : Nat) : Option (Heap × List (PValue × PValue)) :=
  let h0 := (filter_client_df_st h clientsRef txRef).1
  let fRef := (filter_client_df_st h clientsRef txRef).2
  match collect_closest_st fRef h0 client_id_list with
  | none => none
  | some (h1, ds) =>
    some (h1, List.insertionSort scoreDescV (accumulate_scores_v ds))

/-- Concrete heap-model client frame for the frame-claim witness: the raw
columns of `exA`. -/
def exFrameClients : PFrame :=
  [[("client_id", PValue.strv "cA"), ("client_country", PValue.strv "FR"),
    ("client_nationality", PValue.strv "FR"), ("client_city", PValue.strv "Paris"),
    ("client_gender", PValue.strv "M"), ("client_segment", PValue.strv "S1"),
    ("client_premium_status", PValue.strv "P"), ("client_is_contactable", PValue.intv 1),
    ("client_is_phone_contactable", PValue.intv 1),
    ("client_is_email_contactable", PValue.intv 1),
    ("client_is_instant_messaging_contactable", PValue.intv 0)]]

/-- Concrete heap-model transaction frame for the frame-claim witness. -/
def exFrameTxs : PFrame :=
  [[("transaction_id", PValue.strv "t1"), ("client_id", PValue.strv "cA"),
    ("amount", PValue.intv 100)]]

/-- Concrete candidate sharing country, nationality and city with `exA` but
differing in gender. -/
def exY : ClientRow :=
  { exA with client_id := "cY", client_gender := "F" }

/-- The eligibility-filtered table of the concrete example. -/
def exDF : List FilteredClientRow := filter_client_df [exA, exX] [exTxA]

/-- The filtered row of `exA` (contactable, has transacted). -/
def exAF : FilteredClientRow :=
  { client_id := "cA", client_country := "FR", client_nationality := "FR",
    client_city := "Paris", client_gender := "M", client_segment := "S1",
    client_premium_status := "P", has_already_done_transaction := true }

/-- The filtered row of `exX` (contactable, has not transacted). -/
def exXF : FilteredClientRow :=
  { client_id := "cX", client_country := "FR", client_nationality := "DE",
    client_city := "Lyon", client_gender := "M", client_segment := "S1",
    client_premium_status := "P", has_already_done_transaction := false }

/-- Membership of the first-occurrence dedup fold. -/
theorem mem_foldl_dedup {α : Type} [DecidableEq α] (l : List α) :
    ∀ (acc : List α) (x : α),
      (x ∈ l.foldl (fun a y => if y ∈ a then a else a ++ [y]) acc ↔ x ∈ acc ∨ x ∈ l) := by
  induction l with
  | nil => intro acc x; simp
  | cons y ys ih =>
    intro acc x
    rw [List.foldl_cons, ih]
    by_cases hy : y ∈ acc
    · rw [if_pos hy]
      simp only [List.mem_cons]
      constructor
      · rintro (h | h)
        · exact Or.inl h
        · exact Or.inr (Or.inr h)
      · rintro (h | rfl | h)
        · exact Or.inl h
        · exact Or.inl hy
        · exact Or.inr h
    · rw [if_neg hy]
      simp only [List.mem_append, List.mem_cons, List.mem_singleton]
      tauto

/-- Membership in `pdUnique` is membership in the underlying list. -/
theorem pdUnique_mem (l : List String) (x : String) : x ∈ pdUnique l ↔ x ∈ l := by
  unfold pdUnique
  rw [mem_foldl_dedup]
  simp

/-- A property of all entries and of the inserted pair survives `dictInsert`. -/
theorem dictInsert_forall {P : String × Int → Prop} {d : List (String × Int)} {k : String}
    {v : Int} (hd : ∀ p ∈ d, P p) (hkv : P (k, v)) : ∀ p ∈ dictInsert d k v, P p := by
  intro p hp
  unfold dictInsert at hp
  split at hp
  · rcases List.mem_map.mp hp with ⟨q, hq, rfl⟩
    by_cases h : q.1 = k
    · simpa [h] using hkv
    · simpa [h] using hd q hq
  · rcases List.mem_append.mp hp with h | h
    · exact hd p h
    · rcases List.mem_singleton.mp h with rfl
      exact hkv

/-- The keys after `dictInsert`: unchanged on overwrite, the new key appended
otherwise. -/
theorem dictInsert_keys (d : List (String × Int)) (k : String) (v : Int) :
    (dictInsert d k v).map Prod.fst =
      if d.any (fun q => q.1 == k) then d.map Prod.fst else d.map Prod.fst ++ [k] := by
  unfold dictInsert
  split
  · rw [List.map_map]
    apply List.map_congr_left
    intro q _
    by_cases h : q.1 = k <;> simp [h]
  · simp

/-- `dictInsert` preserves distinctness of keys. -/
theorem dictInsert_keysNodup {d : List (String × Int)} (hd : (d.map Prod.fst).Nodup)
    (k : String) (v : Int) : ((dictInsert d k v).map Prod.fst).Nodup := by
  rw [dictInsert_keys]
  split
  · exact hd
  · rename_i h
    rw [List.nodup_append]
    refine ⟨hd, List.nodup_singleton k, ?_⟩
    intro a ha hb
    rcases List.mem_singleton.mp hb with rfl
    rcases List.mem_map.mp ha with ⟨q, hq, hq1⟩
    exact h (List.any_eq_true.mpr ⟨q, hq, by simp [hq1]⟩)

/-- A property of the initial dict and of all pairs survives the dict-building
fold. -/
theorem foldl_dictInsert_forall {P : String × Int → Prop} :
    ∀ (ps d : List (String × Int)), (∀ p ∈ d, P p) → (∀ p ∈ ps, P p) →
      ∀ p ∈ ps.foldl (fun d q => dictInsert d q.1 q.2) d, P p := by
  intro ps
  induction ps with
  | nil => intro d hd _; simpa using hd
  | cons q ps ih =>
    intro d hd hps
    rw [List.foldl_cons]
    refine ih _ (dictInsert_forall hd ?_) (fun p hp => hps p (List.mem_cons_of_mem _ hp))
    simpa using hps q (List.mem_cons_self q ps)

/-- Every entry of a built dict is one of the supplied pairs, up to the stated
property. -/
theorem dictOfPairs_forall {P : String × Int → Prop} (ps : List (String × Int))
    (hps : ∀ p ∈ ps, P p) : ∀ p ∈ dictOfPairs ps, P p :=
  foldl_dictInsert_forall ps [] (by simp) hps

/-- The dict-building fold keeps keys distinct. -/
theorem foldl_dictInsert_keysNodup :
    ∀ (ps d : List (String × Int)), (d.map Prod.fst).Nodup →
      ((ps.foldl (fun d q => dictInsert d q.1 q.2) d).map Prod.fst).Nodup := by
  intro ps
  induction ps with
  | nil => intro d hd; simpa using hd
  | cons q ps ih =>
    intro d hd
    rw [List.foldl_cons]
    exact ih _ (dictInsert_keysNodup hd q.1 q.2)

/-- A Python dict has distinct keys. -/
theorem dictOfPairs_keysNodup (ps : List (String × Int)) :
    ((dictOfPairs ps).map Prod.fst).Nodup :=
  foldl_dictInsert_keysNodup ps [] (by simp)

/-- Inserting a pair puts exactly that pair in the dict. -/
theorem mem_dictInsert_self (d : List (String × Int)) (k : String) (v : Int) :
    (k, v) ∈ dictInsert d k v := by
  unfold dictInsert
  split
  · rename_i h
    rcases List.any_eq_true.mp h with ⟨q, hq, hqk⟩
    refine List.mem_map.mpr ⟨q, hq, ?_⟩
    have hk : q.1 = k := by simpa using hqk
    simp [hk]
  · simp

/-- An entry with a different key survives `dictInsert` unchanged. -/
theorem mem_dictInsert_of_ne {d : List (String × Int)} {p : String × Int} (hp : p ∈ d)
    (k : String) (v : Int) (hne : p.1 ≠ k) : p ∈ dictInsert d k v := by
  unfold dictInsert
  split
  · exact List.mem_map.mpr ⟨p, hp, by simp [hne]⟩
  · exact List.mem_append_left _ hp

/-- If every supplied pair with the key carries the same value, the built dict
contains that key-value pair as soon as one such pair was supplied. -/
theorem foldl_dictInsert_mem_const {k : String} {v : Int} :
    ∀ (ps d : List (String × Int)),
      ((k, v) ∈ d ∨ ∃ q ∈ ps, q.1 = k) → (∀ q ∈ ps, q.1 = k → q.2 = v) →
      (k, v) ∈ ps.foldl (fun d q => dictInsert d q.1 q.2) d := by
  intro ps
  induction ps with
  | nil =>
    intro d hin _
    rcases hin with h | h
    · simpa using h
    · simp at h
  | cons q ps ih =>
    intro d hin hval
    rw [List.foldl_cons]
    by_cases hq : q.1 = k
    · have hv : q.2 = v := hval q (List.mem_cons_self q ps) hq
      refine ih _ (Or.inl ?_) (fun r hr => hval r (List.mem_cons_of_mem _ hr))
      have : dictInsert d q.1 q.2 = dictInsert d k v := by rw [hq, hv]
      rw [this]
      exact mem_dictInsert_self d k v
    · rcases hin with h | h
      · exact ih _ (Or.inl (mem_dictInsert_of_ne h q.1 q.2 (by simpa using fun e => hq e.symm)))
          (fun r hr => hval r (List.mem_cons_of_mem _ hr))
      · rcases h with ⟨r, hr, hrk⟩
        rcases List.mem_cons.mp hr with rfl | hr'
        · exact absurd hrk hq
        · exact ih _ (Or.inr ⟨r, hr', hrk⟩) (fun r hr => hval r (List.mem_cons_of_mem _ hr))

/-- The built dict maps a key to the common value of its supplied pairs. -/
theorem dictOfPairs_mem_const {k : String} {v : Int} (ps : List (String × Int))
    (h1 : ∃ q ∈ ps, q.1 = k) (h2 : ∀ q ∈ ps, q.1 = k → q.2 = v) :
    (k, v) ∈ dictOfPairs ps :=
  foldl_dictInsert_mem_const ps [] (Or.inr h1) h2

/-- Reading the empty dict yields the default 0. -/
theorem dictGet_nil (k : String) : dictGet [] k = 0 := rfl

/-- Reading a cons: the head answers if its key matches, else the tail. -/
theorem dictGet_cons (q : String × Int) (d : List (String × Int)) (k : String) :
    dictGet (q :: d) k = if q.1 = k then q.2 else dictGet d k := by
  unfold dictGet
  by_cases h : q.1 = k
  · rw [List.find?_cons_of_pos _ (by simp [h]), if_pos h]
    rfl
  · rw [List.find?_cons_of_neg _ (by simp [h]), if_neg h]

/-- A key absent from the dict reads as 0. -/
theorem dictGet_eq_zero_of_not_mem {d : List (String × Int)} {k : String}
    (h : k ∉ d.map Prod.fst) : dictGet d k = 0 := by
  unfold dictGet
  rw [List.find?_eq_none.mpr]
  · rfl
  · intro q hq
    simp only [beq_iff_eq]
    intro e
    exact h (List.mem_map.mpr ⟨q, hq, e⟩)

/-- The in-place `+=` map leaves entries with other keys readable unchanged. -/
theorem dictGet_map_add_ne (b : List (String × Int)) (k : String) (v : Int) (k' : String)
    (hne : k' ≠ k) :
    dictGet (b.map (fun q => if q.1 == k then (q.1, q.2 + v) else q)) k' = dictGet b k' := by
  induction b with
  | nil => rfl
  | cons q b ih =>
    rw [List.map_cons, dictGet_cons, dictGet_cons]
    by_cases hq : q.1 = k
    · have h1 : (if q.1 == k then (q.1, q.2 + v) else q) = (q.1, q.2 + v) := by simp [hq]
      rw [h1]
      have h2 : ¬(q.1, q.2 + v).1 = k' := by simp [hq]; exact fun e => hne e.symm
      rw [if_neg h2, if_neg (by rw [hq]; exact fun e => hne e.symm), ih]
    · have h1 : (if q.1 == k then (q.1, q.2 + v) else q) = q := by simp [hq]
      rw [h1]
      by_cases hk' : q.1 = k'
      · rw [if_pos hk', if_pos hk']
      · rw [if_neg hk', if_neg hk', ih]

/-- The in-place `+=` map adds the increment to the reading at its key. -/
theorem dictGet_map_add_self (b : List (String × Int)) (k : String) (v : Int)
    (hmem : k ∈ b.map Prod.fst) :
    dictGet (b.map (fun q => if q.1 == k then (q.1, q.2 + v) else q)) k = dictGet b k + v := by
  induction b with
  | nil => simp at hmem
  | cons q b ih =>
    rw [List.map_cons, dictGet_cons, dictGet_cons]
    by_cases hq : q.1 = k
    · have h1 : (if q.1 == k then (q.1, q.2 + v) else q) = (q.1, q.2 + v) := by simp [hq]
      rw [h1, if_pos (by simpa using hq), if_pos hq]
    · have h1 : (if q.1 == k then (q.1, q.2 + v) else q) = q := by simp [hq]
      have hmem' : k ∈ b.map Prod.fst := by
        rcases List.mem_map.mp hmem with ⟨r, hr, hrk⟩
        rcases List.mem_cons.mp hr with rfl | hr'
        · exact absurd hrk hq
        · exact List.mem_map.mpr ⟨r, hr', hrk⟩
      rw [h1, if_neg hq, if_neg hq, ih hmem']

/-- Appending a fresh key reads as its value there and changes nothing else. -/
theorem dictGet_append_single (b : List (String × Int)) (k : String) (v : Int) (k' : String)
    (hfresh : k ∉ b.map Prod.fst) :
    dictGet (b ++ [(k, v)]) k' = dictGet b k' + if k' = k then v else 0 := by
  induction b with
  | nil =>
    rw [List.nil_append, dictGet_cons, dictGet_nil]
    by_cases h : k' = k
    · rw [if_pos (show (k, v).1 = k' from h.symm), if_pos h]
      omega
    · rw [if_neg (show ¬(k, v).1 = k' from fun e => h e.symm), if_neg h]
      omega
  | cons q b ih =>
    have hfresh' : k ∉ b.map Prod.fst := fun h => hfresh (List.mem_cons_of_mem _ h)
    rw [List.cons_append, dictGet_cons, dictGet_cons]
    by_cases hq : q.1 = k'
    · rw [if_pos hq, if_pos hq]
      have : ¬k' = k := by
        intro e
        exact hfresh (List.mem_map.mpr ⟨q, List.mem_cons_self q b, by rw [hq, e]⟩)
      rw [if_neg this]
      omega
    · rw [if_neg hq, if_neg hq, ih hfresh']

/-- Reading after the accumulator update `dictAdd`: the addressed key gains
the increment, all other keys are unchanged. -/
theorem dictGet_dictAdd (b : List (String × Int)) (k : String) (v : Int) (k' : String) :
    dictGet (dictAdd b k v) k' = dictGet b k' + if k' = k then v else 0 := by
  unfold dictAdd
  split
  · rename_i h
    by_cases hk : k' = k
    · subst hk
      rw [dictGet_map_add_self b k' v, if_pos rfl]
      rcases List.any_eq_true.mp h with ⟨q, hq, hqk⟩
      exact List.mem_map.mpr ⟨q, hq, by simpa using hqk⟩
    · rw [dictGet_map_add_ne b k v k' hk, if_neg hk]
      omega
  · rename_i h
    apply dictGet_append_single
    intro hmem
    rcases List.mem_map.mp hmem with ⟨q, hq, hqk⟩
    exact h (List.any_eq_true.mpr ⟨q, hq, by simp [hqk]⟩)

/-- Folding the entries of a distinct-key dict into an accumulator adds its
reading at every key. -/
theorem foldl_dictAdd_get (k : String) :
    ∀ (d b : List (String × Int)), (d.map Prod.fst).Nodup →
      dictGet (d.foldl (fun b p => dictAdd b p.1 p.2) b) k = dictGet b k + dictGet d k := by
  intro d
  induction d with
  | nil => intro b _; rw [List.foldl_nil, dictGet_nil]; omega
  | cons p rest ih =>
    intro b hnd
    rw [List.map_cons, List.nodup_cons] at hnd
    rw [List.foldl_cons, ih _ hnd.2, dictGet_dictAdd, dictGet_cons]
    by_cases hk : p.1 = k
    · have h0 : dictGet rest k = 0 :=
        dictGet_eq_zero_of_not_mem (by rw [← hk]; exact hnd.1)
      rw [if_pos hk, if_pos hk.symm, h0]
      omega
    · rw [if_neg hk, if_neg (fun e => hk e.symm)]
      omega

/-- The aggregation fold over per-seed dicts with distinct keys reads as the
sum of the per-dict readings. -/
theorem foldl_accumulate_get (k : String) :
    ∀ (ds : List (List (String × Int))) (b : List (String × Int)),
      (∀ d ∈ ds, (d.map Prod.fst).Nodup) →
      dictGet (ds.foldl (fun best closest =>
          closest.foldl (fun b p => dictAdd b p.1 p.2) best) b) k =
        dictGet b k + (ds.map (fun d => dictGet d k)).sum := by
  intro ds
  induction ds with
  | nil => intro b _; simp
  | cons d rest ih =>
    intro b hnd
    rw [List.foldl_cons, ih _ (fun d' hd' => hnd d' (List.mem_cons_of_mem _ hd')),
      foldl_dictAdd_get k d b (hnd d (List.mem_cons_self d rest)), List.map_cons,
      List.sum_cons]
    omega

/-- Reading the accumulated totals is summing the per-seed readings. -/
theorem accumulate_scores_get (ds : List (List (String × Int))) (k : String)
    (hnd : ∀ d ∈ ds, (d.map Prod.fst).Nodup) :
    dictGet (accumulate_scores ds) k = (ds.map (fun d => dictGet d k)).sum := by
  unfold accumulate_scores
  rw [foldl_accumulate_get k ds [] hnd, dictGet_nil]
  omega

/-- The keys after `dictAdd`: unchanged on `+=`, the new key appended on
first insertion. -/
theorem dictAdd_keys (b : List (String × Int)) (k : String) (v : Int) :
    (dictAdd b k v).map Prod.fst =
      if b.any (fun q => q.1 == k) then b.map Prod.fst else b.map Prod.fst ++ [k] := by
  unfold dictAdd
  split
  · rw [List.map_map]
    apply List.map_congr_left
    intro q _
    by_cases h : q.1 = k <;> simp [h]
  · simp

/-- `dictAdd` preserves distinctness of keys. -/
theorem dictAdd_keysNodup {b : List (String × Int)} (hb : (b.map Prod.fst).Nodup)
    (k : String) (v : Int) : ((dictAdd b k v).map Prod.fst).Nodup := by
  rw [dictAdd_keys]
  split
  · exact hb
  · rename_i h
    rw [List.nodup_append]
    refine ⟨hb, List.nodup_singleton k, ?_⟩
    intro a ha hb'
    rcases List.mem_singleton.mp hb' with rfl
    rcases List.mem_map.mp ha with ⟨q, hq, hq1⟩
    exact h (List.any_eq_true.mpr ⟨q, hq, by simp [hq1]⟩)

/-- A key present after `dictAdd` is the added key or was already present. -/
theorem mem_keys_dictAdd {b : List (String × Int)} {k : String} {v : Int} {x : String}
    (hx : x ∈ (dictAdd b k v).map Prod.fst) : x ∈ b.map Prod.fst ∨ x = k := by
  rw [dictAdd_keys] at hx
  split at hx
  · exact Or.inl hx
  · rcases List.mem_append.mp hx with h | h
    · exact Or.inl h
    · exact Or.inr (List.mem_singleton.mp h)

/-- The inner accumulation fold preserves distinctness of keys. -/
theorem foldl_dictAdd_keysNodup :
    ∀ (d b : List (String × Int)), (b.map Prod.fst).Nodup →
      ((d.foldl (fun b p => dictAdd b p.1 p.2) b).map Prod.fst).Nodup := by
  intro d
  induction d with
  | nil => intro b hb; simpa using hb
  | cons p rest ih =>
    intro b hb
    rw [List.foldl_cons]
    exact ih _ (dictAdd_keysNodup hb p.1 p.2)

/-- The outer accumulation fold preserves distinctness of keys. -/
theorem foldl_accumulate_keysNodup :
    ∀ (ds : List (List (String × Int))) (b : List (String × Int)), (b.map Prod.fst).Nodup →
      ((ds.foldl (fun best closest =>
          closest.foldl (fun b p => dictAdd b p.1 p.2) best) b).map Prod.fst).Nodup := by
  intro ds
  induction ds with
  | nil => intro b hb; simpa using hb
  | cons d rest ih =>
    intro b hb
    rw [List.foldl_cons]
    exact ih _ (foldl_dictAdd_keysNodup d b hb)

/-- The accumulated totals have distinct keys. -/
theorem accumulate_keysNodup (ds : List (List (String × Int))) :
    ((accumulate_scores ds).map Prod.fst).Nodup :=
  foldl_accumulate_keysNodup ds [] (by simp)


/-- In a distinct-key dict, reading an entry's key yields its value. -/
theorem mem_dictGet {d : List (String × Int)} (hnd : (d.map Prod.fst).Nodup)
    {p : String × Int} (hp : p ∈ d) : dictGet d p.1 = p.2 := by
  induction d with
  | nil => cases hp
  | cons q rest ih =>
    rw [List.map_cons, List.nodup_cons] at hnd
    rcases List.mem_cons.mp hp with rfl | hp1
    · rw [dictGet_cons, if_pos rfl]
    · rw [dictGet_cons, if_neg ?_]
      · exact ih hnd.2 hp1
      · intro e
        exact hnd.1 (e ▸ List.mem_map.mpr ⟨p, hp1, rfl⟩)

/-- A dict whose values are bounded reads below the bound everywhere. -/
theorem dictGet_le {d : List (String × Int)} {c : Int} (hval : ∀ q ∈ d, q.2 ≤ c)
    (hc : 0 ≤ c) (k : String) : dictGet d k ≤ c := by
  unfold dictGet
  cases hf : d.find? (fun q => q.1 == k) with
  | none => simpa using hc
  | some q =>
    have hq : q ∈ d := List.mem_of_find?_eq_some hf
    simpa using hval q hq

/-- An entry of the inner accumulation fold takes its key from the
accumulator or from the folded dict. -/
theorem foldl_dictAdd_mem_keys :
    ∀ (rest b : List (String × Int)) (p : String × Int),
      p ∈ rest.foldl (fun b q => dictAdd b q.1 q.2) b →
      p.1 ∈ b.map Prod.fst ∨ p.1 ∈ rest.map Prod.fst := by
  intro rest
  induction rest with
  | nil =>
    intro b p hp
    exact Or.inl (List.mem_map.mpr ⟨p, hp, rfl⟩)
  | cons q rs ih =>
    intro b p hp
    rw [List.foldl_cons] at hp
    rcases ih _ p hp with h | h
    · rcases mem_keys_dictAdd h with h1 | h1
      · exact Or.inl h1
      · exact Or.inr (by rw [List.map_cons]; exact h1 ▸ List.mem_cons_self _ _)
    · exact Or.inr (by rw [List.map_cons]; exact List.mem_cons_of_mem _ h)

/-- An entry of the outer accumulation fold takes its key from the
accumulator or from one of the folded dicts. -/
theorem foldl_accumulate_mem_keys :
    ∀ (ds : List (List (String × Int))) (b : List (String × Int)) (p : String × Int),
      p ∈ ds.foldl (fun best closest => closest.foldl (fun b q => dictAdd b q.1 q.2) best) b →
      p.1 ∈ b.map Prod.fst ∨ ∃ d ∈ ds, p.1 ∈ d.map Prod.fst := by
  intro ds
  induction ds with
  | nil =>
    intro b p hp
    exact Or.inl (List.mem_map.mpr ⟨p, hp, rfl⟩)
  | cons d rest ih =>
    intro b p hp
    rw [List.foldl_cons] at hp
    rcases ih _ p hp with h | h
    · rcases List.mem_map.mp h with ⟨q, hq, hqk⟩
      rcases foldl_dictAdd_mem_keys d b q hq with h1 | h1
      · exact Or.inl (hqk ▸ h1)
      · exact Or.inr ⟨d, List.mem_cons_self d rest, hqk ▸ h1⟩
    · rcases h with ⟨d1, hd1, hk⟩
      exact Or.inr ⟨d1, List.mem_cons_of_mem _ hd1, hk⟩

/-- Every entry of the accumulated totals takes its key from one of the
per-seed dicts. -/
theorem accumulate_mem_keys {ds : List (List (String × Int))} {p : String × Int}
    (hp : p ∈ accumulate_scores ds) : ∃ d ∈ ds, p.1 ∈ d.map Prod.fst := by
  unfold accumulate_scores at hp
  rcases foldl_accumulate_mem_keys ds [] p hp with h | h
  · simp at h
  · exact h

/-- The four weights are 1, 3, 5, 3; the score is their sum over agreeing
attributes. -/
theorem similarity_score_eq (row client_data : FilteredClientRow) :
    similarity_score row client_data =
      (if row.client_country = client_data.client_country then (1 : Int) else 0) +
      ((if row.client_nationality = client_data.client_nationality then (3 : Int) else 0) +
       ((if row.client_city = client_data.client_city then (5 : Int) else 0) +
        (if row.client_gender = client_data.client_gender then (3 : Int) else 0))) := by
  have w1 : ruleWeight "same_country" = 1 := rfl
  have w2 : ruleWeight "same_nationality" = 3 := rfl
  have w3 : ruleWeight "same_city" = 5 := rfl
  have w4 : ruleWeight "same_gender" = 3 := rfl
  simp only [similarity_score, w1, w2, w3, w4]
  by_cases h1 : row.client_country = client_data.client_country <;>
    by_cases h2 : row.client_nationality = client_data.client_nationality <;>
      by_cases h3 : row.client_city = client_data.client_city <;>
        by_cases h4 : row.client_gender = client_data.client_gender <;>
          simp [h1, h2, h3, h4]

/-- The similarity score never exceeds the sum 12 of the four weights. -/
theorem similarity_score_le (row client_data : FilteredClientRow) :
    similarity_score row client_data ≤ 12 := by
  rw [similarity_score_eq]
  split_ifs <;> omega

/-- Characterization of a successful `get_closest_clients` call: the result
dict has distinct keys, and every entry has a strictly positive score of at
most 12 and names a row of the table that has never done a transaction. -/
theorem get_closest_clients_mem {client_id : String} {df : List FilteredClientRow}
    {d : List (String × Int)} (h : get_closest_clients client_id df = some d) :
    ((d.map Prod.fst).Nodup) ∧ ∀ p ∈ d, 0 < p.2 ∧ p.2 ≤ 12 ∧
      ∃ r ∈ df, r.client_id = p.1 ∧ r.has_already_done_transaction = false := by
  unfold get_closest_clients at h
  cases hf : df.find? (fun r => r.client_id == client_id) with
  | none => rw [hf] at h; cases h
  | some client_data =>
    rw [hf] at h
    injection h with h
    subst h
    refine ⟨dictOfPairs_keysNodup _, ?_⟩
    apply dictOfPairs_forall
    intro q hq
    rcases List.mem_map.mp hq with ⟨pr, hpr, rfl⟩
    rcases List.mem_filter.mp hpr with ⟨hsc, hpos⟩
    rcases List.mem_map.mp hsc with ⟨r, hr, rfl⟩
    rcases List.mem_filter.mp hr with ⟨hrdf, helig⟩
    have hflag : r.has_already_done_transaction = false := by
      simp only [Bool.and_eq_true, beq_iff_eq] at helig
      exact helig.2
    exact ⟨by simpa using hpos, similarity_score_le r client_data, r, hrdf, rfl, hflag⟩

/-- Every dict collected by the first loop is a successful
`get_closest_clients` result for one of the seeds. -/
theorem collect_closest_mem {df : List FilteredClientRow} {seeds : List String}
    {ds : List (List (String × Int))} (h : collect_closest df seeds = some ds) :
    ∀ d ∈ ds, ∃ s ∈ seeds, get_closest_clients s df = some d := by
  induction seeds generalizing ds with
  | nil =>
    rw [collect_closest] at h
    injection h with h
    subst h
    intro d hd
    cases hd
  | cons s rest ih =>
    rw [collect_closest] at h
    cases hg : get_closest_clients s df with
    | none => rw [hg] at h; cases h
    | some d0 =>
      rw [hg] at h
      cases hc : collect_closest df rest with
      | none => rw [hc] at h; cases h
      | some ds0 =>
        rw [hc] at h
        injection h with h
        subst h
        intro d hd
        rcases List.mem_cons.mp hd with rfl | hd1
        · exact ⟨s, List.mem_cons_self s rest, hg⟩
        · rcases ih hc d hd1 with ⟨s1, hs1, hgs⟩
          exact ⟨s1, List.mem_cons_of_mem _ hs1, hgs⟩

/-- The first loop returns one dict per seed occurrence. -/
theorem collect_closest_length {df : List FilteredClientRow} {seeds : List String}
    {ds : List (List (String × Int))} (h : collect_closest df seeds = some ds) :
    ds.length = seeds.length := by
  induction seeds generalizing ds with
  | nil =>
    rw [collect_closest] at h
    injection h with h
    subst h
    rfl
  | cons s rest ih =>
    rw [collect_closest] at h
    cases hg : get_closest_clients s df with
    | none => rw [hg] at h; cases h
    | some d0 =>
      rw [hg] at h
      cases hc : collect_closest df rest with
      | none => rw [hc] at h; cases h
      | some ds0 =>
        rw [hc] at h
        injection h with h
        subst h
        simp [ih hc]

/-- Folding a dict with keys disjoint from the accumulator appends it. -/
theorem foldl_dictAdd_disjoint :
    ∀ (d b : List (String × Int)), (∀ k ∈ b.map Prod.fst, k ∉ d.map Prod.fst) →
      (d.map Prod.fst).Nodup →
      d.foldl (fun b p => dictAdd b p.1 p.2) b = b ++ d := by
  intro d
  induction d with
  | nil => intro b _ _; simp
  | cons p rest ih =>
    intro b hdisj hnd
    rw [List.map_cons, List.nodup_cons] at hnd
    have hfresh : p.1 ∉ b.map Prod.fst := by
      intro hmem
      exact hdisj p.1 hmem (by rw [List.map_cons]; exact List.mem_cons_self _ _)
    have hany : (b.any fun q => q.1 == p.1) = false := by
      rw [List.any_eq_false]
      intro q hq
      simp only [beq_iff_eq]
      intro e
      exact hfresh (List.mem_map.mpr ⟨q, hq, e⟩)
    have hstep : dictAdd b p.1 p.2 = b ++ [p] := by
      unfold dictAdd
      rw [hany]
      simp
    rw [List.foldl_cons, hstep, ih (b ++ [p]) ?_ hnd.2, List.append_assoc]
    · rfl
    · intro k hk
      rw [List.map_append, List.mem_append] at hk
      rcases hk with hk | hk
      · intro hk2
        exact hdisj k hk (by rw [List.map_cons]; exact List.mem_cons_of_mem _ hk2)
      · rcases List.mem_singleton.mp (by simpa using hk) with rfl
        exact hnd.1

/-- Aggregating a single per-seed dict returns that dict. -/
theorem accumulate_scores_single (d : List (String × Int))
    (hnd : (d.map Prod.fst).Nodup) : accumulate_scores [d] = d := by
  unfold accumulate_scores
  rw [List.foldl_cons, List.foldl_nil, foldl_dictAdd_disjoint d [] (by simp) hnd,
    List.nil_append]

/-- Decomposition of a successful `generate_best_new_clients` call into the
collect, accumulate and sort stages. -/
theorem generate_eq {seeds : List String} {clients_df : List ClientRow}
    {transactions_df : List TransactionRow} {m : List (String × Int)}
    (hm : generate_best_new_clients seeds clients_df transactions_df = some m) :
    ∃ ds, collect_closest (filter_client_df clients_df transactions_df) seeds = some ds ∧
      m = List.insertionSort scoreDesc (accumulate_scores ds) := by
  simp only [generate_best_new_clients] at hm
  cases hc : collect_closest (filter_client_df clients_df transactions_df) seeds with
  | none => rw [hc] at hm; cases hm
  | some ds =>
    rw [hc] at hm
    injection hm with hm
    exact ⟨ds, rfl, hm.symm⟩

/-- C1 (amended): every key of the mapping returned by
`generate_best_new_clients` refers to a client of the filtered table whose
`has_already_done_transaction` flag is false. The original "no key equals any
seed id" part fails (see the counterexample): a seed that has never
transacted is its own eligible candidate, so a key may equal a seed
identifier exactly when that seed has no prior transaction. -/
theorem C1_keys_never_transacted (seeds : List String) (clients_df : List ClientRow)
    (transactions_df : List TransactionRow) (m : List (String × Int))
    (hm : generate_best_new_clients seeds clients_df transactions_df = some m) :
    ∀ p ∈ m, ∃ r ∈ filter_client_df clients_df transactions_df,
      r.client_id = p.1 ∧ r.has_already_done_transaction = false := by
  rcases generate_eq hm with ⟨ds, hc, rfl⟩
  intro p hp
  rw [List.mem_insertionSort] at hp
  rcases accumulate_mem_keys hp with ⟨d, hd, hk⟩
  rcases collect_closest_mem hc d hd with ⟨s, _, hg⟩
  rcases List.mem_map.mp hk with ⟨q, hq, hqk⟩
  rcases (get_closest_clients_mem hg).2 q hq with ⟨_, _, r, hr, hrid, hflag⟩
  exact ⟨r, hr, by rw [hrid, hqk], hflag⟩

/-- C1 as stated is false: for the seed list `["cA"]` over a table whose only
client `exA` is contactable and has never transacted, the mapping returned by
`generate_best_new_clients` has the key `"cA"`, which equals a seed
identifier. -/
theorem C1_counterexample :
    ∃ m, generate_best_new_clients ["cA"] [exA] [] = some m ∧ ∃ p ∈ m, p.1 ∈ ["cA"] := by
  refine ⟨[("cA", 12)], rfl, ("cA", 12), ?_, ?_⟩ <;> simp

/-- Witness for the amended C1 theorem at a concrete call. -/
theorem C1_witness :
    ∃ r ∈ filter_client_df [exA, exX] [exTxA], r.client_id = "cX" ∧
      r.has_already_done_transaction = false :=
  C1_keys_never_transacted ["cA"] [exA, exX] [exTxA] [("cX", 4)] rfl ("cX", 4) (by simp)

/-- C2 (amended): `get_closest_clients` succeeds exactly when the identifier
occurs in the client table passed to it — in the pipeline that is the
eligibility-filtered table, not the original one; the lookup is by exact
string match on `client_id` and fails (empty `.iloc[0]`) otherwise. -/
theorem C2_lookup_in_given_table (client_id : String) (df : List FilteredClientRow) :
    (get_closest_clients client_id df).isSome = true ↔ ∃ r ∈ df, r.client_id = client_id := by
  unfold get_closest_clients
  cases hf : df.find? (fun r => r.client_id == client_id) with
  | none =>
    simp only [Option.isSome_none, Bool.false_eq_true, false_iff]
    rw [List.find?_eq_none] at hf
    rintro ⟨r, hr, hrid⟩
    exact absurd (by simp [hrid]) (hf r hr)
  | some client_data =>
    simp only [Option.isSome_some, true_iff]
    refine ⟨client_data, List.mem_of_find?_eq_some hf, ?_⟩
    simpa using List.find?_some hf

/-- C2 as stated is false: the non-contactable client `exB` is present in the
original client table, yet the lookup for its identifier fails, because
`get_closest_clients` queries the eligibility-filtered table from which
`exB` was removed. -/
theorem C2_counterexample :
    ("cB" ∈ ([exB] : List ClientRow).map (fun r => r.client_id)) ∧
      get_closest_clients "cB" (filter_client_df [exB] []) = none := by
  constructor
  · simp [exB, exA]
  · rfl

/-- Witness for the amended C2 theorem at a concrete call. -/
theorem C2_witness : ∃ r ∈ exDF, r.client_id = "cA" :=
  (C2_lookup_in_given_table "cA" exDF).mp rfl

/-- C3: the per-candidate score is the sum of the fixed weights
same_country:1, same_nationality:3, same_city:5, same_gender:3 over exactly
the agreeing attributes, and — candidates with score ≤ 0 being discarded —
every value of a successful `get_closest_clients` mapping is strictly
positive. -/
theorem C3_score_formula_and_positive (row client_data : FilteredClientRow)
    (client_id : String) (df : List FilteredClientRow) (d : List (String × Int))
    (hd : get_closest_clients client_id df = some d) :
    (similarity_score row client_data =
      (if row.client_country = client_data.client_country then (1 : Int) else 0) +
      ((if row.client_nationality = client_data.client_nationality then (3 : Int) else 0) +
       ((if row.client_city = client_data.client_city then (5 : Int) else 0) +
        (if row.client_gender = client_data.client_gender then (3 : Int) else 0)))) ∧
    ∀ p ∈ d, 0 < p.2 :=
  ⟨similarity_score_eq row client_data, fun p hp => ((get_closest_clients_mem hd).2 p hp).1⟩

/-- Witness for C3 at the concrete example rows and call. -/
theorem C3_witness : similarity_score exXF exAF = 1 + (0 + (0 + 3)) ∧ 0 < (4 : Int) := by
  have h := C3_score_formula_and_positive exXF exAF "cA" exDF [("cX", 4)] rfl
  refine ⟨?_, h.2 ("cX", 4) (by simp)⟩
  rw [h.1]
  decide

/-- C5: the mapping returned by `generate_best_new_clients` is ordered by
descending aggregate score: every entry's score is at least the score of the
entry following it. -/
theorem C5_sorted_descending (seeds : List String) (clients_df : List ClientRow)
    (transactions_df : List TransactionRow) (m : List (String × Int))
    (hm : generate_best_new_clients seeds clients_df transactions_df = some m) :
    List.Chain' (fun a b : String × Int => b.2 ≤ a.2) m := by
  rcases generate_eq hm with ⟨ds, _, rfl⟩
  exact List.Pairwise.chain' (List.sorted_insertionSort scoreDesc _)

/-- Witness for C5 at a concrete two-entry result. -/
theorem C5_witness :
    List.Chain' (fun a b : String × Int => b.2 ≤ a.2) [("cY", 9), ("cX", 4)] :=
  C5_sorted_descending ["cA"] [exA, exX, exY] [exTxA] [("cY", 9), ("cX", 4)] rfl

/-- C7: `filter_client_df` has no error conditions — the embedding is a total
function, returning for every pair of schema-conforming tables — and empty
inputs yield the empty output. -/
theorem C7_total_and_empty_inputs :
    (∀ (clients_df : List ClientRow) (transactions_df : List TransactionRow),
      ∃ out, filter_client_df clients_df transactions_df = out) ∧
    filter_client_df [] [] = ([] : List FilteredClientRow) :=
  ⟨fun _ _ => ⟨_, rfl⟩, rfl⟩

/-- C9: for the empty seed list and every pair of tables,
`generate_best_new_clients` returns the empty mapping. -/
theorem C9_empty_seed_list (clients_df : List ClientRow)
    (transactions_df : List TransactionRow) :
    generate_best_new_clients [] clients_df transactions_df = some [] := rfl

/-- C4: for every seed list (a duplicated seed counted once per occurrence),
the aggregate score of every returned entry equals the exact sum, over the
per-seed dicts collected from `get_closest_clients` (one per seed occurrence,
in order), of the reading at the entry's key — a candidate absent from a
seed's dict contributing 0 — and is at most 12 times the number of seeds. -/
theorem C4_aggregate_is_sum (seeds : List String) (clients_df : List ClientRow)
    (transactions_df : List TransactionRow) (m : List (String × Int))
    (hm : generate_best_new_clients seeds clients_df transactions_df = some m) :
    ∃ ds, collect_closest (filter_client_df clients_df transactions_df) seeds = some ds ∧
      ds.length = seeds.length ∧
      ∀ p ∈ m, p.2 = (ds.map (fun d => dictGet d p.1)).sum ∧
        p.2 ≤ 12 * (seeds.length : Int) := by
  rcases generate_eq hm with ⟨ds, hc, rfl⟩
  refine ⟨ds, hc, collect_closest_length hc, ?_⟩
  have hnd : ∀ d ∈ ds, (d.map Prod.fst).Nodup := by
    intro d hd
    rcases collect_closest_mem hc d hd with ⟨s, _, hg⟩
    exact (get_closest_clients_mem hg).1
  intro p hp
  rw [List.mem_insertionSort] at hp
  have hval : p.2 = dictGet (accumulate_scores ds) p.1 :=
    (mem_dictGet (accumulate_keysNodup ds) hp).symm
  have hsum := accumulate_scores_get ds p.1 hnd
  have hterm : ∀ x ∈ ds.map (fun d => dictGet d p.1), x ≤ (12 : Int) := by
    intro x hx
    rcases List.mem_map.mp hx with ⟨d, hd, rfl⟩
    rcases collect_closest_mem hc d hd with ⟨s, _, hg⟩
    exact dictGet_le (fun q hq => ((get_closest_clients_mem hg).2 q hq).2.1)
      (by norm_num) p.1
  have hb := List.sum_le_card_nsmul (ds.map (fun d => dictGet d p.1)) 12 hterm
  rw [List.length_map, collect_closest_length hc, nsmul_eq_mul] at hb
  constructor
  · rw [hval, hsum]
  · rw [hval, hsum]
    linarith [hb]

/-- Witness for C4 at a concrete call. -/
theorem C4_witness :
    ∃ ds, collect_closest (filter_client_df [exA, exX] [exTxA]) ["cA"] = some ds ∧
      ds.length = (["cA"] : List String).length ∧
      ∀ p ∈ [(("cX" : String), (4 : Int))],
        p.2 = (ds.map (fun d => dictGet d p.1)).sum ∧
          p.2 ≤ 12 * (((["cA"] : List String).length : Nat) : Int) :=
  C4_aggregate_is_sum ["cA"] [exA, exX] [exTxA] [("cX", 4)] rfl

/-- C8: with the single seed list `[idA]`, an eligible candidate row `x`
(same segment and premium status as the seed's looked-up row, no prior
transaction, identifier unique in the filtered table) whose country and
gender agree with the seed's row while nationality and city differ scores
1 + 3 = 4, and the returned mapping assigns it 4. -/
theorem C8_country_gender_scores_four (clients_df : List ClientRow)
    (transactions_df : List TransactionRow) (idA : String) (a x : FilteredClientRow)
    (m : List (String × Int))
    (hm : generate_best_new_clients [idA] clients_df transactions_df = some m)
    (ha : (filter_client_df clients_df transactions_df).find?
      (fun r => r.client_id == idA) = some a)
    (hx : x ∈ filter_client_df clients_df transactions_df)
    (huniq : ∀ y ∈ filter_client_df clients_df transactions_df,
      y.client_id = x.client_id → y = x)
    (hseg : x.client_segment = a.client_segment)
    (hstat : x.client_premium_status = a.client_premium_status)
    (hflag : x.has_already_done_transaction = false)
    (hcountry : x.client_country = a.client_country)
    (hgender : x.client_gender = a.client_gender)
    (hnat : x.client_nationality ≠ a.client_nationality)
    (hcity : x.client_city ≠ a.client_city) :
    similarity_score x a = 4 ∧ (x.client_id, (4 : Int)) ∈ m := by
  have hscore : similarity_score x a = 4 := by
    rw [similarity_score_eq, if_pos hcountry, if_neg hnat, if_neg hcity, if_pos hgender]
    norm_num
  refine ⟨hscore, ?_⟩
  rcases generate_eq hm with ⟨ds, hc, rfl⟩
  cases hg : get_closest_clients idA (filter_client_df clients_df transactions_df) with
  | none =>
    simp only [collect_closest, hg] at hc
    exact Option.noConfusion hc
  | some d =>
    simp only [collect_closest, hg, Option.some.injEq] at hc
    subst hc
    rw [List.mem_insertionSort,
      accumulate_scores_single d (get_closest_clients_mem hg).1]
    unfold get_closest_clients at hg
    rw [ha] at hg
    injection hg with hg
    subst hg
    apply dictOfPairs_mem_const
    · refine ⟨(x.client_id, 4), ?_, rfl⟩
      apply List.mem_map.mpr
      refine ⟨(x, 4), ?_, rfl⟩
      apply List.mem_filter.mpr
      refine ⟨?_, by norm_num⟩
      apply List.mem_map.mpr
      refine ⟨x, ?_, by rw [hscore]⟩
      apply List.mem_filter.mpr
      exact ⟨hx, by simp [hseg, hstat, hflag]⟩
    · intro q hq hqk
      rcases List.mem_map.mp hq with ⟨pr, hpr, rfl⟩
      rcases List.mem_filter.mp hpr with ⟨hsc, _⟩
      rcases List.mem_map.mp hsc with ⟨r, hr, rfl⟩
      rcases List.mem_filter.mp hr with ⟨hrdf, _⟩
      have hrx : r = x := huniq r hrdf (by simpa using hqk)
      subst hrx
      simpa using hscore

/-- Witness for C8 at the concrete example. -/
theorem C8_witness : similarity_score exXF exAF = 4 ∧
    (("cX" : String), (4 : Int)) ∈ [(("cX" : String), (4 : Int))] :=
  C8_country_gender_scores_four [exA, exX] [exTxA] "cA" exAF exXF [("cX", 4)] rfl rfl
    (by decide) (by decide) rfl rfl rfl rfl rfl (by decide) (by decide)

/-- C6: `filter_client_df` agrees with the spec-side filter: it returns
exactly the rows whose contactability flag is true — the four raw
contactability columns dropped by the result row type — and its derived
`has_already_done_transaction` column is true exactly when some transaction
row carries the client's identifier. -/
theorem C6_filter_matches_spec (clients_df : List ClientRow)
    (transactions_df : List TransactionRow) :
    filter_client_df clients_df transactions_df =
      filter_client_df_spec clients_df transactions_df := by
  unfold filter_client_df filter_client_df_spec
  have hfil : (fun r : ClientRow => decide (r.client_is_contactable = true)) =
      (fun r : ClientRow => r.client_is_contactable) := by
    funext r
    cases hr : r.client_is_contactable <;> simp [hr]
  rw [hfil]
  apply List.map_congr_left
  intro r _
  have hmem : (pdUnique (transactions_df.map (fun t => t.client_id))).contains r.client_id =
      decide (∃ tr ∈ transactions_df, tr.client_id = r.client_id) := by
    rw [Bool.eq_iff_iff]
    rw [List.elem_iff, pdUnique_mem, decide_eq_true_eq]
    simp
  rw [hmem]

/-- Allocation leaves every existing frame readable unchanged. -/
theorem heapGet_alloc_lt {h : Heap} {i : Nat} (hi : i < h.length) (f : PFrame) :
    heapGet (heapAlloc h f).1 i = heapGet h i := by
  unfold heapGet heapAlloc
  exact List.getD_append h [f] [] i hi

/-- Overwriting one frame leaves every other reference readable unchanged. -/
theorem heapGet_set_ne {h : Heap} {i j : Nat} (hne : i ≠ j) (f : PFrame) :
    heapGet (heapSet h j f) i = heapGet h i := by
  unfold heapGet heapSet
  rw [List.getD_eq_getElem?_getD, List.getD_eq_getElem?_getD, List.getElem?_set_ne hne.symm]

/-- Allocation grows the heap by one frame. -/
theorem heapAlloc_length (h : Heap) (f : PFrame) :
    (heapAlloc h f).1.length = h.length + 1 := by
  unfold heapAlloc
  simp

/-- Overwriting a frame keeps the heap size. -/
theorem heapSet_length (h : Heap) (j : Nat) (f : PFrame) :
    (heapSet h j f).length = h.length := List.length_set h j f

/-- The alloc-alloc-then-overwrite-the-second pattern of the filter leaves
every pre-existing frame unchanged. -/
theorem heapGet_st_chain {h : Heap} {i : Nat} (hi : i < h.length) (f1 f2 f3 : PFrame) :
    heapGet (heapSet (heapAlloc (heapAlloc h f1).1 f2).1
      (heapAlloc (heapAlloc h f1).1 f2).2 f3) i = heapGet h i := by
  have hlen1 : i < (heapAlloc h f1).1.length := by
    rw [heapAlloc_length]
    omega
  have hne : i ≠ (heapAlloc (heapAlloc h f1).1 f2).2 := by
    show i ≠ (heapAlloc h f1).1.length
    rw [heapAlloc_length]
    omega
  rw [heapGet_set_ne hne, heapGet_alloc_lt hlen1, heapGet_alloc_lt hi]

/-- The alloc-overwrite-it-then-alloc pattern of the per-seed scorer leaves
every pre-existing frame unchanged. -/
theorem heapGet_st_chain2 {h : Heap} {i : Nat} (hi : i < h.length) (f1 f2 f3 : PFrame) :
    heapGet (heapAlloc (heapSet (heapAlloc h f1).1 (heapAlloc h f1).2 f2) f3).1 i =
      heapGet h i := by
  have hlen : i < (heapSet (heapAlloc h f1).1 (heapAlloc h f1).2 f2).length := by
    rw [heapSet_length, heapAlloc_length]
    omega
  have hne : i ≠ (heapAlloc h f1).2 := by
    show i ≠ h.length
    omega
  rw [heapGet_alloc_lt hlen, heapGet_set_ne hne, heapGet_alloc_lt hi]

/-- The heap-threaded filter writes only its two fresh frames: every frame
already on the heap — in particular both input tables — is unchanged, and the
heap grows by exactly the two fresh frames. -/
theorem filter_client_df_st_frames (h : Heap) (clientsRef txRef : Nat) :
    (∀ i, i < h.length → heapGet (filter_client_df_st h clientsRef txRef).1 i = heapGet h i) ∧
      (filter_client_df_st h clientsRef txRef).1.length = h.length + 2 := by
  constructor
  · intro i hi
    exact heapGet_st_chain hi _ _ _
  · show (heapSet _ _ _).length = _
    rw [heapSet_length, heapAlloc_length, heapAlloc_length]

/-- The heap-threaded per-seed scorer writes only its fresh copy: every frame
already on the heap is unchanged and the heap only grows. -/
theorem get_closest_clients_st_frames {h : Heap} {cid : String} {dfRef : Nat}
    {hout : Heap} {d : List (PValue × PValue)}
    (hres : get_closest_clients_st h cid dfRef = some (hout, d)) :
    (∀ i, i < h.length → heapGet hout i = heapGet h i) ∧ h.length ≤ hout.length := by
  simp only [get_closest_clients_st] at hres
  split at hres
  · exact Option.noConfusion hres
  · injection hres with hres
    rw [Prod.ext_iff] at hres
    obtain ⟨hh, _⟩ := hres
    subst hh
    constructor
    · intro i hi
      exact heapGet_st_chain2 hi _ _ _
    · show h.length ≤ (heapAlloc _ _).1.length
      rw [heapAlloc_length, heapSet_length, heapAlloc_length]
      omega

/-- The heap-threaded first loop leaves every frame already on the heap
unchanged and only grows the heap. -/
theorem collect_closest_st_frames {fRef : Nat} :
    ∀ (seeds : List String) (h hout : Heap) (ds : List (List (PValue × PValue))),
      collect_closest_st fRef h seeds = some (hout, ds) →
      (∀ i, i < h.length → heapGet hout i = heapGet h i) ∧ h.length ≤ hout.length := by
  intro seeds
  induction seeds with
  | nil =>
    intro h hout ds hres
    rw [collect_closest_st] at hres
    injection hres with hres
    rw [Prod.ext_iff] at hres
    obtain ⟨hh, _⟩ := hres
    subst hh
    exact ⟨fun i _ => rfl, le_refl _⟩
  | cons s rest ih =>
    intro h hout ds hres
    rw [collect_closest_st] at hres
    split at hres
    · exact Option.noConfusion hres
    · rename_i h1 closest hg
      split at hres
      · exact Option.noConfusion hres
      · rename_i hend ds2 hcrest
        injection hres with hres
        rw [Prod.ext_iff] at hres
        obtain ⟨hh, _⟩ := hres
        subst hh
        obtain ⟨hp1, hl1⟩ := get_closest_clients_st_frames hg
        obtain ⟨hp2, hl2⟩ := ih h1 hend ds2 hcrest
        constructor
        · intro i hi
          rw [hp2 i (lt_of_lt_of_le hi hl1), hp1 i hi]
        · exact le_trans hl1 hl2

/-- C10: in the heap-threaded embedding, `filter_client_df` and
`generate_best_new_clients` leave the frames of both input tables exactly as
they were: all fresh frames (query, drop, copy, mask results) are
allocations, and the two in-place column assignments target only those fresh
frames, never the inputs. -/
theorem C10_inputs_unchanged (h : Heap) (clientsRef txRef : Nat) (seeds : List String)
    (hcl : clientsRef < h.length) (htx : txRef < h.length) :
    (heapGet (filter_client_df_st h clientsRef txRef).1 clientsRef = heapGet h clientsRef ∧
      heapGet (filter_client_df_st h clientsRef txRef).1 txRef = heapGet h txRef) ∧
    ∀ hout res, generate_best_new_clients_st h seeds clientsRef txRef = some (hout, res) →
      heapGet hout clientsRef = heapGet h clientsRef ∧
        heapGet hout txRef = heapGet h txRef := by
  obtain ⟨hpres, hlen⟩ := filter_client_df_st_frames h clientsRef txRef
  refine ⟨⟨hpres clientsRef hcl, hpres txRef htx⟩, ?_⟩
  intro hout res hres
  simp only [generate_best_new_clients_st] at hres
  cases hc : collect_closest_st (filter_client_df_st h clientsRef txRef).2
      (filter_client_df_st h clientsRef txRef).1 seeds with
  | none => rw [hc] at hres; cases hres
  | some pr =>
    obtain ⟨h1, ds⟩ := pr
    rw [hc] at hres
    injection hres with hres
    rw [Prod.ext_iff] at hres
    obtain ⟨hh, _⟩ := hres
    subst hh
    obtain ⟨hp, _⟩ := collect_closest_st_frames seeds _ _ _ hc
    have hcl2 : clientsRef < (filter_client_df_st h clientsRef txRef).1.length := by
      rw [hlen]
      omega
    have htx2 : txRef < (filter_client_df_st h clientsRef txRef).1.length := by
      rw [hlen]
      omega
    exact ⟨by rw [hp clientsRef hcl2, hpres clientsRef hcl],
      by rw [hp txRef htx2, hpres txRef htx]⟩

/-- Witness for C10 at a concrete two-frame heap. -/
theorem C10_witness :
    ((heapGet (filter_client_df_st [exFrameClients, exFrameTxs] 0 1).1 0 =
        heapGet [exFrameClients, exFrameTxs] 0 ∧
      heapGet (filter_client_df_st [exFrameClients, exFrameTxs] 0 1).1 1 =
        heapGet [exFrameClients, exFrameTxs] 1) ∧
    ∀ hout res, generate_best_new_clients_st [exFrameClients, exFrameTxs] ["cA"] 0 1 =
        some (hout, res) →
      heapGet hout 0 = heapGet [exFrameClients, exFrameTxs] 0 ∧
        heapGet hout 1 = heapGet [exFrameClients, exFrameTxs] 1) :=
  C10_inputs_unchanged [exFrameClients, exFrameTxs] 0 1 ["cA"] (by decide) (by decide)

end FindSimilarClients
